import Mathlib

/-!
# Verification of the JPG→RAW polarity-correction converter

Shallow embedding of `src/converter.py`.  The core is `convert_to_raw`
(pixel encoding to RGB565 variants, little-endian serialization, polarity
inversion), plus the test-pattern generator and the batch driver's
control flow.  Machine integers are modelled as `Nat`; the bit
operations `>>`, `<<`, `&`, `|` of Python become `>>>`, `<<<`, `&&&`,
`|||` on `Nat` (Python ints are unbounded non-negative here, exactly as
`Nat`).  The mode dispatch in the source assigns `pixel` only for modes
0–7 (any other mode leaves `pixel` unbound and the program would crash),
so the encoder returns `Option Nat`, `none` outside 0–7.
-/

namespace Converter

/-- One pixel's base (pre-polarity) 16-bit value, from the `if/elif`
chain of `convert_to_raw` (converter.py lines 47–66).  Modes 0/4:
standard RGB565; 1/5: standard BGR565; 2/6: compact RGB565 (green
truncated to 5 bits, shifted to bit 6); 3/7: compact BGR565. -/
def basePixel (r g b mode : Nat) : Option Nat :=
  if mode = 0 ∨ mode = 4 then
    some ((((r >>> 3) &&& 0x1F) <<< 11) ||| (((g >>> 2) &&& 0x3F) <<< 5) ||| ((b >>> 3) &&& 0x1F))
  else if mode = 1 ∨ mode = 5 then
    some ((((b >>> 3) &&& 0x1F) <<< 11) ||| (((g >>> 2) &&& 0x3F) <<< 5) ||| ((r >>> 3) &&& 0x1F))
  else if mode = 2 ∨ mode = 6 then
    some ((((r >>> 3) &&& 0x1F) <<< 11) ||| (((g >>> 3) &&& 0x1F) <<< 6) ||| ((b >>> 3) &&& 0x1F))
  else if mode = 3 ∨ mode = 7 then
    some ((((b >>> 3) &&& 0x1F) <<< 11) ||| (((g >>> 3) &&& 0x1F) <<< 6) ||| ((r >>> 3) &&& 0x1F))
  else
    none

/-- The final pixel value: the base value, with the polarity inversion
`pixel = 0xFFFF - pixel` applied when `mode >= 4` (converter.py
lines 69–70). -/
def encodePixel (r g b mode : Nat) : Option Nat :=
  (basePixel r g b mode).map (fun pixel => if 4 ≤ mode then 0xFFFF - pixel else pixel)

/-- Little-endian serialization of one 16-bit pixel value:
`bytes([pixel & 0xFF, (pixel >> 8) & 0xFF])` (converter.py line 73). -/
def pixelBytes (pixel : Nat) : List Nat :=
  [pixel &&& 0xFF, (pixel >>> 8) &&& 0xFF]

/-- The byte stream written by the nested loops of `convert_to_raw`
(converter.py lines 42–73): `y` outer over `range(height)`, `x` inner
over `range(width)`, two bytes per pixel.  The already-prepared image is
abstracted as a function from coordinates to an 8-bit RGB triple, as
returned by `img.getpixel((x, y))`. -/
def convertToRaw (img : Nat → Nat → Nat × Nat × Nat) (width height mode : Nat) :
    Option (List Nat) :=
  (((List.range height).mapM fun y =>
    (((List.range width).mapM fun x =>
      (encodePixel (img x y).1 (img x y).2.1 (img x y).2.2 mode).map pixelBytes).map
        List.flatten)).map List.flatten)

/-- The screen size constant of the configuration block (converter.py
line 16). -/
def SCREEN_WIDTH : Nat := 240

/-- The per-pixel value of the generated test pattern
(`generate_test_image`, converter.py lines 80–93): the image starts as
`Image.new('RGB', ...)` (black), the loop body first writes one of the
three 80-pixel color stripes, then for `x >= 120` the second `putpixel`
overwrites it with the black-to-white gradient
`int(255 * (x - 120) / (SCREEN_WIDTH - 120))` (a non-negative ratio, so
`int(...)` is floor division). -/
def testPatternPixel (x y : Nat) : Nat × Nat × Nat :=
  let afterStripe :=
    if x < 80 then (255, 0, 0)
    else if x < 160 then (0, 255, 0)
    else if x < 240 then (0, 0, 255)
    else (0, 0, 0)
  if 120 ≤ x then
    let gray := 255 * (x - 120) / (SCREEN_WIDTH - 120)
    (gray, gray, gray)
  else afterStripe

/-- Modelled from the spec: the alpha compositing done by the Pillow
calls `Image.new('RGB', size, (255, 255, 255))` and
`background.paste(img, mask=alpha)` (converter.py lines 30–33) — the
Pillow library implementing them is not part of this repository.  Per
the spec, an RGBA pixel is alpha-blended onto an opaque white
background using its alpha channel as the mask, by direct per-channel
compositing: fully transparent pixels become white, fully opaque pixels
keep the original channel value. -/
def compositeChannel (c a : Nat) : Nat :=
  (c * a + 255 * (255 - a)) / 255

/-- Modelled from the spec: an (r, g, b, a) source pixel after
compositing onto the opaque white background. -/
def compositeOnWhite (p : Nat × Nat × Nat × Nat) : Nat × Nat × Nat :=
  (compositeChannel p.1 p.2.2.2, compositeChannel p.2.1 p.2.2.2,
    compositeChannel p.2.2.1 p.2.2.2)

/-- Abstract state of the working directory when the batch run starts:
whether `imgs/` exists, the file names inside it, and whether writing
the generated test pattern `imgs/test_pattern.jpg` would succeed. -/
structure FsState where
  imgsExists : Bool
  imgsFiles : List String
  canWriteTestPattern : Bool

/-- Process exit status of the batch run. -/
inductive ExitStatus where
  | success
  | failure
deriving DecidableEq

/-- The extension filter of `main` (converter.py lines 129–133):
`*.jpg`, `*.jpeg`, `*.png` (suffix match on the file name's
characters). -/
def hasImageExt (name : String) : Bool :=
  List.isSuffixOf ".jpg".data name.data || List.isSuffixOf ".jpeg".data name.data ||
    List.isSuffixOf ".png".data name.data

/-- The `*.*` glob of `auto_detect_directories` (converter.py
line 115): matches names containing a dot (hidden dot-files, which
`glob` skips, are not modelled). -/
def matchesAnyGlob (name : String) : Bool :=
  name.data.contains '.'

/-- Control flow of `auto_detect_directories` and `main` (converter.py
lines 102–137) over the abstract filesystem: the process exit status
and the list of files that proceed to conversion.
`auto_detect_directories` generates the test pattern when `imgs/` is
missing (line 109) or when its `*.*` glob matches nothing (line 115); a
failing write raises an uncaught exception, ending the process
unsuccessfully.  Otherwise `main` re-globs for `*.jpg`/`*.jpeg`/`*.png`
(lines 129–133) and, when that list is empty, prints "No images found.
Aborting." and returns normally — a zero (success) exit status (lines
135–137).  Decoding and conversion of the found files is assumed to
succeed (DecodeError/IOError during conversion are outside this
model). -/
def mainRun (fs : FsState) : ExitStatus × List String :=
  if fs.imgsExists = false then
    if fs.canWriteTestPattern then
      (ExitStatus.success, List.filter hasImageExt ["test_pattern.jpg"])
    else (ExitStatus.failure, [])
  else if fs.imgsFiles.filter matchesAnyGlob = [] then
    if fs.canWriteTestPattern then
      (ExitStatus.success, List.filter hasImageExt (fs.imgsFiles ++ ["test_pattern.jpg"]))
    else (ExitStatus.failure, [])
  else
    (ExitStatus.success, fs.imgsFiles.filter hasImageExt)

end Converter

/-! ## Helper lemmas -/

namespace Converter

theorem land_pow_two_sub_one_self (a k : Nat) (h : a < 2 ^ k) : a &&& (2 ^ k - 1) = a := by
  rw [Nat.and_pow_two_sub_one_eq_mod, Nat.mod_eq_of_lt h]

theorem shiftRight3_lt (r : Nat) (h : r < 256) : r >>> 3 < 32 := by
  rw [Nat.shiftRight_eq_div_pow]
  omega

theorem shiftRight2_lt (g : Nat) (h : g < 256) : g >>> 2 < 64 := by
  rw [Nat.shiftRight_eq_div_pow]
  omega

theorem land31_of_lt256 (r : Nat) (h : r < 256) : (r >>> 3) &&& 0x1F = r >>> 3 :=
  land_pow_two_sub_one_self _ 5 (shiftRight3_lt r h)

theorem land63_of_lt256 (g : Nat) (h : g < 256) : (g >>> 2) &&& 0x3F = g >>> 2 :=
  land_pow_two_sub_one_self _ 6 (shiftRight2_lt g h)

theorem add_xor_pow_two_sub_one :
    ∀ (n : Nat), ∀ p, p < 2 ^ n → p + (p ^^^ (2 ^ n - 1)) = 2 ^ n - 1
  | 0, p, h => by
    interval_cases p
    simp
  | n + 1, p, h => by
    have hpow : 2 ^ (n + 1) = 2 * 2 ^ n := by ring
    have hq : p / 2 < 2 ^ n := by omega
    have IH := add_xor_pow_two_sub_one n (p / 2) hq
    have hm2 : (2 ^ (n + 1) - 1) / 2 = 2 ^ n - 1 := by omega
    have hz2 : (p ^^^ (2 ^ (n + 1) - 1)) / 2 = (p / 2) ^^^ (2 ^ n - 1) := by
      rw [Nat.xor_div_two, hm2]
    have hm : (2 ^ (n + 1) - 1) % 2 = 1 := by omega
    have ht := Nat.testBit_xor p (2 ^ (n + 1) - 1) 0
    rw [Nat.testBit_zero, Nat.testBit_zero, Nat.testBit_zero, hm] at ht
    rcases Nat.mod_two_eq_zero_or_one p with h0 | h0 <;>
      rcases Nat.mod_two_eq_zero_or_one (p ^^^ (2 ^ (n + 1) - 1)) with z0 | z0 <;>
      simp [h0, z0] at ht ⊢ <;> omega

/-- For 16-bit values, subtracting from `0xFFFF` is the bitwise complement. -/
theorem compl16 (p : Nat) (h : p ≤ 65535) : 65535 - p = p ^^^ 65535 := by
  have h2 := add_xor_pow_two_sub_one 16 p (by omega)
  norm_num at h2
  omega

theorem shifted_field_lt (x s w : Nat) (hx : x < 2 ^ w) (hsw : s + w ≤ 16) :
    x <<< s < 65536 := by
  rw [Nat.shiftLeft_eq]
  calc x * 2 ^ s < 2 ^ w * 2 ^ s := by
        exact Nat.mul_lt_mul_of_lt_of_le hx (Nat.le_refl _) (Nat.two_pow_pos s)
    _ = 2 ^ (w + s) := by rw [← pow_add]
    _ ≤ 2 ^ 16 := Nat.pow_le_pow_right (by norm_num) (by omega)

theorem packed_lt (hi mid lo : Nat) (h1 : hi < 65536) (h2 : mid < 65536) (h3 : lo < 65536) :
    hi ||| mid ||| lo < 65536 := by
  have e : (65536 : Nat) = 2 ^ 16 := by norm_num
  rw [e] at h1 h2 h3 ⊢
  exact Nat.or_lt_two_pow (Nat.or_lt_two_pow h1 h2) h3

theorem land31_lt (x : Nat) : x &&& 0x1F < 32 :=
  Nat.and_lt_two_pow x (show (0x1F : Nat) < 2 ^ 5 by norm_num)

theorem land63_lt (x : Nat) : x &&& 0x3F < 64 :=
  Nat.and_lt_two_pow x (show (0x3F : Nat) < 2 ^ 6 by norm_num)

/-- Every base pixel value fits in 16 bits: the masked fields are shifted
into disjoint, non-overflowing positions. -/
theorem basePixel_lt (r g b mode p : Nat) (h : basePixel r g b mode = some p) :
    p < 65536 := by
  have f5 : ∀ x : Nat, (x &&& 0x1F) <<< 11 < 65536 := fun x =>
    shifted_field_lt _ 11 5 (land31_lt x) (by norm_num)
  have f6 : ∀ x : Nat, (x &&& 0x3F) <<< 5 < 65536 := fun x =>
    shifted_field_lt _ 5 6 (land63_lt x) (by norm_num)
  have f5' : ∀ x : Nat, (x &&& 0x1F) <<< 6 < 65536 := fun x =>
    shifted_field_lt _ 6 5 (land31_lt x) (by norm_num)
  have f0 : ∀ x : Nat, x &&& 0x1F < 65536 := fun x => lt_trans (land31_lt x) (by norm_num)
  unfold basePixel at h
  split at h
  · cases h; exact packed_lt _ _ _ (f5 _) (f6 _) (f0 _)
  · split at h
    · cases h; exact packed_lt _ _ _ (f5 _) (f6 _) (f0 _)
    · split at h
      · cases h; exact packed_lt _ _ _ (f5 _) (f5' _) (f0 _)
      · split at h
        · cases h; exact packed_lt _ _ _ (f5 _) (f5' _) (f0 _)
        · cases h

/-- For any in-range mode the base pixel is defined. -/
theorem basePixel_isSome (r g b mode : Nat) (hm : mode ≤ 7) :
    ∃ q, basePixel r g b mode = some q := by
  interval_cases mode <;> simp [basePixel]

/-- Below mode 4 the polarity inversion is the identity. -/
theorem encodePixel_base (r g b m : Nat) (hm : m ≤ 3) :
    encodePixel r g b m = basePixel r g b m := by
  have h4 : ¬ 4 ≤ m := by omega
  cases hb : basePixel r g b m <;> simp [encodePixel, hb, h4]

/-- Adding 4 to a base mode selects the same packing branch. -/
theorem basePixel_add4 (r g b m : Nat) (hm : m ≤ 3) :
    basePixel r g b (m + 4) = basePixel r g b m := by
  interval_cases m <;> rfl

/-- For any in-range mode the encoded pixel is defined. -/
theorem encodePixel_isSome (r g b m : Nat) (hm : m ≤ 7) :
    ∃ p, encodePixel r g b m = some p := by
  obtain ⟨q, hq⟩ := basePixel_isSome r g b m hm
  exact ⟨if 4 ≤ m then 0xFFFF - q else q, by simp [encodePixel, hq]⟩

theorem mapM_eq_some_map {α β : Type} (f : α → Option β) (g : α → β) :
    ∀ l : List α, (∀ a ∈ l, f a = some (g a)) → l.mapM f = some (l.map g) := by
  intro l
  induction l with
  | nil => intro _; rfl
  | cons a t ih =>
    intro hfa
    have ha := hfa a (by simp)
    have ht := ih (fun x hx => hfa x (by simp [hx]))
    rw [List.mapM_cons, ha, ht]
    rfl

theorem flatten_const_length {α : Type} (k : Nat) :
    ∀ L : List (List α), (∀ l ∈ L, l.length = k) → L.flatten.length = L.length * k := by
  intro L
  induction L with
  | nil => intro _; simp
  | cons a t ih =>
    intro hL
    have ha := hL a (by simp)
    have ht := ih (fun l hl => hL l (by simp [hl]))
    simp [List.flatten_cons, ha, ht]
    ring

theorem flatten_getElem? {α : Type} (k : Nat) :
    ∀ (L : List (List α)) (i j : Nat), (∀ l ∈ L, l.length = k) → i < L.length → j < k →
      L.flatten[i * k + j]? = L[i]?.bind fun l => l[j]? := by
  intro L
  induction L with
  | nil => intro i j _ hi _; simp at hi
  | cons a t ih =>
    intro i j hk hi hj
    have ha := hk a (by simp)
    cases i with
    | zero =>
      simp only [List.flatten_cons, Nat.zero_mul, Nat.zero_add]
      rw [List.getElem?_append_left (by omega)]
      simp
    | succ i =>
      simp only [List.flatten_cons]
      have hidx : (i + 1) * k + j = a.length + (i * k + j) := by
        rw [ha]; ring
      rw [hidx, List.getElem?_append_right (by omega)]
      have hsub : a.length + (i * k + j) - a.length = i * k + j := by omega
      rw [hsub, ih i j (fun l hl => hk l (by simp [hl])) (by simpa using hi) hj]
      simp

/-- Closed form of the byte stream for an in-range mode: the
concatenation, row by row and pixel by pixel, of each pixel's two
bytes. -/
theorem convertToRaw_eq_some (img : Nat → Nat → Nat × Nat × Nat) (w h m : Nat) (hm : m ≤ 7) :
    convertToRaw img w h m = some
      (((List.range h).map fun y =>
        ((List.range w).map fun x =>
          pixelBytes ((encodePixel (img x y).1 (img x y).2.1 (img x y).2.2 m).getD 0)).flatten).flatten) := by
  unfold convertToRaw
  have hrow : ∀ y, ((List.range w).mapM fun x =>
      (encodePixel (img x y).1 (img x y).2.1 (img x y).2.2 m).map pixelBytes) =
      some ((List.range w).map fun x =>
        pixelBytes ((encodePixel (img x y).1 (img x y).2.1 (img x y).2.2 m).getD 0)) := by
    intro y
    apply mapM_eq_some_map
    intro x hx
    obtain ⟨p, hp⟩ := encodePixel_isSome (img x y).1 (img x y).2.1 (img x y).2.2 m hm
    rw [hp]
    rfl
  have houter : ((List.range h).mapM fun y =>
      (((List.range w).mapM fun x =>
        (encodePixel (img x y).1 (img x y).2.1 (img x y).2.2 m).map pixelBytes).map
          List.flatten)) =
      some ((List.range h).map fun y =>
        ((List.range w).map fun x =>
          pixelBytes ((encodePixel (img x y).1 (img x y).2.1 (img x y).2.2 m).getD 0)).flatten) := by
    apply mapM_eq_some_map
    intro y hy
    rw [hrow y]
    rfl
  rw [houter]
  rfl

/-- Each row of the closed-form byte stream has length `w * 2`. -/
theorem rowBytes_length (img : Nat → Nat → Nat × Nat × Nat) (w m y : Nat) :
    (((List.range w).map fun x =>
      pixelBytes ((encodePixel (img x y).1 (img x y).2.1 (img x y).2.2 m).getD 0)).flatten).length =
      w * 2 := by
  rw [flatten_const_length 2]
  · simp only [List.length_map, List.length_range]
  · intro l2 hl2
    simp only [List.mem_map] at hl2
    obtain ⟨x', hx', rfl⟩ := hl2
    rfl

/-- Locating one byte of one pixel inside the closed-form byte stream. -/
theorem rawByteIndex (img : Nat → Nat → Nat × Nat × Nat) (w h m y x j : Nat)
    (hy : y < h) (hx : x < w) (hj : j < 2) :
    (((List.range h).map fun y =>
      ((List.range w).map fun x =>
        pixelBytes ((encodePixel (img x y).1 (img x y).2.1 (img x y).2.2 m).getD 0)).flatten).flatten)[y * (w * 2) + (x * 2 + j)]? =
    (pixelBytes ((encodePixel (img x y).1 (img x y).2.1 (img x y).2.2 m).getD 0))[j]? := by
  have hrowlen : ∀ l ∈ (List.range h).map (fun y =>
      ((List.range w).map fun x =>
        pixelBytes ((encodePixel (img x y).1 (img x y).2.1 (img x y).2.2 m).getD 0)).flatten),
      l.length = w * 2 := by
    intro l hl
    simp only [List.mem_map] at hl
    obtain ⟨y', hy', rfl⟩ := hl
    exact rowBytes_length img w m y'
  rw [flatten_getElem? (w * 2) _ y (x * 2 + j) hrowlen (by simpa using hy) (by omega)]
  rw [List.getElem?_map, List.getElem?_range hy]
  simp only [Option.map_some', Option.some_bind]
  rw [flatten_getElem? 2 _ x j ?_ (by simpa using hx) hj]
  · rw [List.getElem?_map, List.getElem?_range hx]
    simp only [Option.map_some', Option.some_bind]
  · intro l2 hl2
    simp only [List.mem_map] at hl2
    obtain ⟨x', hx', rfl⟩ := hl2
    rfl

end Converter

/-! ## Claims -/

open Converter

/-- C1.  For every 8-bit triple (r,g,b), the pixel value produced for
mode 0 equals `((r>>3)<<11) ||| ((g>>2)<<5) ||| (b>>3)` (5-bit red on
top, 6-bit green in the middle, 5-bit blue at the bottom, fields taken
as the top bits of each channel), and mode 1 is the same with the red
and blue fields swapped. -/
theorem C1_standard_packing (r g b : Nat) (hr : r < 256) (hg : g < 256) (hb : b < 256) :
    encodePixel r g b 0 = some (((r >>> 3) <<< 11) ||| ((g >>> 2) <<< 5) ||| (b >>> 3)) ∧
    encodePixel r g b 1 = some (((b >>> 3) <<< 11) ||| ((g >>> 2) <<< 5) ||| (r >>> 3)) := by
  simp only [encodePixel, basePixel]
  norm_num
  rw [land31_of_lt256 r hr, land31_of_lt256 b hb, land63_of_lt256 g hg]
  exact ⟨rfl, rfl⟩

/-- Witness for C1 at (r,g,b) = (255, 0, 0). -/
theorem C1_standard_packing_witness :
    encodePixel 255 0 0 0 = some (((255 >>> 3) <<< 11) ||| ((0 >>> 2) <<< 5) ||| (0 >>> 3)) ∧
    encodePixel 255 0 0 1 = some (((0 >>> 3) <<< 11) ||| ((0 >>> 2) <<< 5) ||| (255 >>> 3)) :=
  C1_standard_packing 255 0 0 (by decide) (by decide) (by decide)

/-- C2.  For every 8-bit triple (r,g,b) and every base mode m ≤ 3, the
pixel produced for mode m+4 is `0xFFFF` minus the pixel produced for
mode m, which (the value being 16-bit) equals its bitwise 16-bit
complement. -/
theorem C2_polarity_inversion (r g b m : Nat) (hr : r < 256) (hg : g < 256) (hb : b < 256)
    (hm : m ≤ 3) (p : Nat) (hp : encodePixel r g b m = some p) :
    encodePixel r g b (m + 4) = some (0xFFFF - p) ∧ 0xFFFF - p = p ^^^ 0xFFFF := by
  rw [encodePixel_base r g b m hm] at hp
  have hlt := basePixel_lt r g b m p hp
  have h4 : 4 ≤ m + 4 := by omega
  constructor
  · simp [encodePixel, basePixel_add4 r g b m hm, hp, h4]
  · exact compl16 p (by omega)

/-- Witness for C2 at (r,g,b) = (255, 0, 0), m = 0. -/
theorem C2_polarity_inversion_witness :
    encodePixel 255 0 0 (0 + 4) = some (0xFFFF - 0xF800) ∧
      0xFFFF - 0xF800 = 0xF800 ^^^ 0xFFFF :=
  C2_polarity_inversion 255 0 0 0 (by decide) (by decide) (by decide) (by decide)
    0xF800 (by decide)

/-- C3.  For every 8-bit triple (r,g,b), the compact-packing modes
truncate green to 5 bits (`g>>3`) and shift it to bit position 6:
mode 2 yields `((r>>3)<<11) ||| ((g>>3)<<6) ||| (b>>3)` and mode 3 the
same with red and blue swapped — exactly as specified, not standard
RGB565. -/
theorem C3_compact_packing (r g b : Nat) (hr : r < 256) (hg : g < 256) (hb : b < 256) :
    encodePixel r g b 2 = some (((r >>> 3) <<< 11) ||| ((g >>> 3) <<< 6) ||| (b >>> 3)) ∧
    encodePixel r g b 3 = some (((b >>> 3) <<< 11) ||| ((g >>> 3) <<< 6) ||| (r >>> 3)) := by
  simp only [encodePixel, basePixel]
  norm_num
  rw [land31_of_lt256 r hr, land31_of_lt256 b hb, land31_of_lt256 g hg]
  exact ⟨rfl, rfl⟩

/-- Witness for C3 at (r,g,b) = (0, 255, 0). -/
theorem C3_compact_packing_witness :
    encodePixel 0 255 0 2 = some (((0 >>> 3) <<< 11) ||| ((255 >>> 3) <<< 6) ||| (0 >>> 3)) ∧
    encodePixel 0 255 0 3 = some (((0 >>> 3) <<< 11) ||| ((255 >>> 3) <<< 6) ||| (0 >>> 3)) :=
  C3_compact_packing 0 255 0 (by decide) (by decide) (by decide)

/-- C10.  For every triple and every mode 0–7 the computed pixel value
fits in 16 bits, so `0xFFFF - pixel` never underflows, the polarity
inversion equals the 16-bit bitwise complement, and the two-byte
little-endian serialization is lossless (the two bytes reconstruct the
pixel). -/
theorem C10_pixel_in_range (r g b m : Nat) (hm : m ≤ 7) :
    ∃ p, encodePixel r g b m = some p ∧ p ≤ 0xFFFF ∧
      0xFFFF - p = p ^^^ 0xFFFF ∧
      (p &&& 0xFF) + 256 * ((p >>> 8) &&& 0xFF) = p := by
  obtain ⟨q, hq⟩ := basePixel_isSome r g b m hm
  have hqlt := basePixel_lt r g b m q hq
  refine ⟨if 4 ≤ m then 0xFFFF - q else q, ?_, ?_⟩
  · simp [encodePixel, hq]
  · have hple : (if 4 ≤ m then 0xFFFF - q else q) ≤ 0xFFFF := by
      split <;> omega
    refine ⟨hple, compl16 _ hple, ?_⟩
    have h1 : (if 4 ≤ m then 0xFFFF - q else q) &&& 0xFF =
        (if 4 ≤ m then 0xFFFF - q else q) % 256 := by
      have := Nat.and_pow_two_sub_one_eq_mod (if 4 ≤ m then 0xFFFF - q else q) 8
      norm_num at this
      exact this
    have h2 : (if 4 ≤ m then 0xFFFF - q else q) >>> 8 =
        (if 4 ≤ m then 0xFFFF - q else q) / 256 := by
      rw [Nat.shiftRight_eq_div_pow]
    have h3 : (if 4 ≤ m then 0xFFFF - q else q) / 256 &&& 0xFF =
        (if 4 ≤ m then 0xFFFF - q else q) / 256 % 256 := by
      have := Nat.and_pow_two_sub_one_eq_mod ((if 4 ≤ m then 0xFFFF - q else q) / 256) 8
      norm_num at this
      exact this
    rw [h1, h2, h3]
    omega

/-- C4.  For every prepared image, every positive target width and
height, and every mode 0–7, the emitted RAW buffer has exactly 2 bytes
per pixel: total length width × height × 2. -/
theorem C4_buffer_length (img : Nat → Nat → Nat × Nat × Nat) (w h m : Nat)
    (hw : 0 < w) (hh : 0 < h) (hm : m ≤ 7) :
    ∃ bs, convertToRaw img w h m = some bs ∧ bs.length = w * h * 2 := by
  refine ⟨_, convertToRaw_eq_some img w h m hm, ?_⟩
  rw [flatten_const_length (w * 2)]
  · simp only [List.length_map, List.length_range]
    ring
  · intro l hl
    simp only [List.mem_map] at hl
    obtain ⟨y, hy, rfl⟩ := hl
    rw [flatten_const_length 2]
    · simp only [List.length_map, List.length_range]
    · intro l2 hl2
      simp only [List.mem_map] at hl2
      obtain ⟨x, hx, rfl⟩ := hl2
      rfl

/-- Witness for C4 with a constant black 2×3 image, mode 5. -/
theorem C4_buffer_length_witness :
    ∃ bs, convertToRaw (fun _ _ => (0, 0, 0)) 2 3 5 = some bs ∧ bs.length = 2 * 3 * 2 :=
  C4_buffer_length (fun _ _ => (0, 0, 0)) 2 3 5 (by decide) (by decide) (by decide)

/-- C5.  Pixels are emitted in row-major scan order (y outer from the
top row, x inner), and each 16-bit pixel value v contributes the two
bytes `v & 0xFF` then `(v >> 8) & 0xFF` (little-endian): the bytes of
the pixel at (x, y) sit at offsets `2*(y*w + x)` and `2*(y*w + x) + 1`
of the buffer. -/
theorem C5_byte_and_scan_order (img : Nat → Nat → Nat × Nat × Nat) (w h m y x : Nat)
    (hm : m ≤ 7) (hy : y < h) (hx : x < w) :
    ∃ bs p, convertToRaw img w h m = some bs ∧
      encodePixel (img x y).1 (img x y).2.1 (img x y).2.2 m = some p ∧
      bs[2 * (y * w + x)]? = some (p &&& 0xFF) ∧
      bs[2 * (y * w + x) + 1]? = some ((p >>> 8) &&& 0xFF) := by
  obtain ⟨p, hp⟩ := encodePixel_isSome (img x y).1 (img x y).2.1 (img x y).2.2 m hm
  refine ⟨_, p, convertToRaw_eq_some img w h m hm, hp, ?_, ?_⟩
  · rw [show 2 * (y * w + x) = y * (w * 2) + (x * 2 + 0) by ring]
    rw [rawByteIndex img w h m y x 0 hy hx (by omega), hp]
    rfl
  · rw [show 2 * (y * w + x) + 1 = y * (w * 2) + (x * 2 + 1) by ring]
    rw [rawByteIndex img w h m y x 1 hy hx (by omega), hp]
    rfl

/-- Witness for C5: constant red 2×2 image, mode 0, pixel (1, 1). -/
theorem C5_byte_and_scan_order_witness :
    ∃ bs p, convertToRaw (fun _ _ => (255, 0, 0)) 2 2 0 = some bs ∧
      encodePixel ((fun (_ _ : Nat) => (255, 0, 0)) 1 1).1
        ((fun (_ _ : Nat) => (255, 0, 0)) 1 1).2.1
        ((fun (_ _ : Nat) => (255, 0, 0)) 1 1).2.2 0 = some p ∧
      bs[2 * (1 * 2 + 1)]? = some (p &&& 0xFF) ∧
      bs[2 * (1 * 2 + 1) + 1]? = some ((p >>> 8) &&& 0xFF) :=
  C5_byte_and_scan_order (fun _ _ => (255, 0, 0)) 2 2 0 1 1 (by decide) (by decide) (by decide)

/-- C6.  A 2×1 image of pure red (255,0,0) converted at width 2,
height 1 yields per-pixel value 0xF800 and bytes `00 F8 00 F8` in
mode 0, and per-pixel value 0x07FF and bytes `FF 07 FF 07` in
mode 4. -/
theorem C6_pure_red_scenario :
    encodePixel 255 0 0 0 = some 0xF800 ∧
    encodePixel 255 0 0 4 = some 0x07FF ∧
    convertToRaw (fun _ _ => (255, 0, 0)) 2 1 0 = some [0x00, 0xF8, 0x00, 0xF8] ∧
    convertToRaw (fun _ _ => (255, 0, 0)) 2 1 4 = some [0xFF, 0x07, 0xFF, 0x07] :=
  ⟨rfl, rfl, rfl, rfl⟩

/-- C7.  During image preparation an alpha channel is composited
onto an opaque white background with the alpha channel as mask: a fully
transparent pixel (a = 0) becomes pure white and a fully opaque pixel
(a = 255) keeps its original color. -/
theorem C7_alpha_composite (r g b : Nat) :
    compositeOnWhite (r, g, b, 0) = (255, 255, 255) ∧
    compositeOnWhite (r, g, b, 255) = (r, g, b) := by
  unfold compositeOnWhite compositeChannel
  simp [Nat.mul_div_cancel]

/-- C9.  The diagnostic test pattern at width 240 has pixel (0,0)
pure red: every pixel with x < 80 is in the red stripe, and the
gradient override (x ≥ 120) does not apply there. -/
theorem C9_test_pattern_origin_red (x y : Nat) (hx : x < 80) :
    testPatternPixel x y = (255, 0, 0) := by
  unfold testPatternPixel
  have h1 : ¬ 120 ≤ x := by omega
  simp [hx, h1]

/-- Witness for C9 at pixel (0, 0). -/
theorem C9_test_pattern_origin_red_witness :
    testPatternPixel 0 0 = (255, 0, 0) :=
  C9_test_pattern_origin_red 0 0 (by decide)

/-- C8 counterexample:  With `imgs/` present but holding only
`photo.bmp` (matched by the `*.*` glob, so no test pattern is
attempted) and the test pattern unwritable, the conversion-time glob
finds no images, yet the run terminates as a success (plain `return`
from `main`, exit status 0), not as an EmptyInput failure. -/
theorem C8_counterexample :
    (mainRun ⟨true, ["photo.bmp"], false⟩).2 = [] ∧
    (mainRun ⟨true, ["photo.bmp"], false⟩).1 ≠ ExitStatus.failure := by
  constructor
  · decide
  · decide

/-- C8, amended:  The batch run terminates unsuccessfully iff the
test pattern must be generated (`imgs/` missing, or its `*.*` glob
matches nothing) and writing it fails; in every other case — including
when `imgs/` holds files but none with a `.jpg`/`.jpeg`/`.png`
extension, so no images are found and nothing is converted — the run
terminates as a success. -/
theorem C8_exit_status (fs : FsState) :
    (mainRun fs).1 = ExitStatus.failure ↔
      (fs.imgsExists = false ∨ fs.imgsFiles.filter matchesAnyGlob = []) ∧
        fs.canWriteTestPattern = false := by
  rcases fs with ⟨e, files, cw⟩
  by_cases hf : List.filter matchesAnyGlob files = [] <;>
    cases e <;> cases cw <;> simp [mainRun, hf]

/-- Witness for C10 at (r,g,b) = (17, 200, 3), m = 7. -/
theorem C10_pixel_in_range_witness :
    ∃ p, encodePixel 17 200 3 7 = some p ∧ p ≤ 0xFFFF ∧
      0xFFFF - p = p ^^^ 0xFFFF ∧
      (p &&& 0xFF) + 256 * ((p >>> 8) &&& 0xFF) = p :=
  C10_pixel_in_range 17 200 3 7 (by decide)
